import Mathlib

/-!
Shallow embedding of the `graph` crate (`src/lib.rs`): a directed-graph
container `Graph<V, E>` backed by two hash maps, with mutation operations,
BFS traversal and a plain-text (trivial-graph-format) serializer and
deserializer.

Hash maps over `VertexId = u32` are embedded as association lists
`List (Nat × α)`; `VertexId` values are `Nat`s, and the `u32` bound
`id < 2 ^ 32` is tracked where it matters (construction of reachable
graphs, decimal parsing).  Strings are embedded as `List Char`.
-/

namespace GraphSpec

abbrev VertexId := Nat

/-- Lookup in an association list (embeds `HashMap::get`). -/
def alLookup {α : Type} (k : Nat) : List (Nat × α) → Option α
  | [] => none
  | p :: rest => if p.1 = k then some p.2 else alLookup k rest

/-- Insertion into an association list (embeds `HashMap::insert`): replaces
the value at an existing key in place, otherwise appends the binding at the
end.  Returns the updated list together with the previous value. -/
def alInsert {α : Type} (k : Nat) (v : α) : List (Nat × α) → List (Nat × α) × Option α
  | [] => ([(k, v)], none)
  | p :: rest =>
      if p.1 = k then ((k, v) :: rest, some p.2)
      else (p :: (alInsert k v rest).1, (alInsert k v rest).2)

/-- Key removal from an association list (embeds `HashMap::remove`, which
drops the binding of the key; on the duplicate-free lists a `HashMap` can
produce, dropping every binding of the key is the same thing). -/
def eraseKey {α : Type} (k : Nat) : List (Nat × α) → List (Nat × α)
  | [] => []
  | p :: rest => if p.1 = k then eraseKey k rest else p :: eraseKey k rest

/-- In-place update of the value stored at key `k` (embeds mutation through
`HashMap::get_mut`). -/
def alUpdate {α : Type} (k : Nat) (f : α → α) (l : List (Nat × α)) : List (Nat × α) :=
  l.map (fun p => if p.1 = k then (k, f p.2) else p)

/-- `OrientedEdge(pub VertexId, pub VertexId)`. -/
structure OrientedEdge where
  fst : VertexId
  snd : VertexId
deriving DecidableEq

/-- `Graph<V, E>`: the adjacency store `adj_list` and the vertex-value store
`vertices`. -/
structure Graph (V E : Type) where
  adj_list : List (Nat × List (Nat × E))
  vertices : List (Nat × V)

/-- `Graph::new()`. -/
def Graph.new {V E : Type} : Graph V E := ⟨[], []⟩

/-- `self.adj_list.entry(vertex_id).or_insert(HashMap::new())`: create an
empty adjacency row for `k` unless one already exists. -/
def entryOrEmpty {E : Type} (k : Nat) (l : List (Nat × List (Nat × E))) :
    List (Nat × List (Nat × E)) :=
  match alLookup k l with
  | some _ => l
  | none => l ++ [(k, [])]

/-- `Graph::insert_node`: ensure an adjacency row exists, then insert the
vertex value, returning the previous value. -/
def insert_node {V E : Type} (g : Graph V E) (id : VertexId) (v : V) :
    Option V × Graph V E :=
  ((alInsert id v g.vertices).2,
   ⟨entryOrEmpty id g.adj_list, (alInsert id v g.vertices).1⟩)

/-- `Graph::remove_node`: drop `id` as a destination from every adjacency
row, drop the row of `id` itself, and remove (returning) the vertex value. -/
def remove_node {V E : Type} (g : Graph V E) (id : VertexId) :
    Option V × Graph V E :=
  (alLookup id g.vertices,
   ⟨eraseKey id (g.adj_list.map (fun p => (p.1, eraseKey id p.2))),
    eraseKey id g.vertices⟩)

/-- `Graph::insert_edge`: `self.adj_list.get_mut(&edge.0)?.insert(edge.1, value)`. -/
def insert_edge {V E : Type} (g : Graph V E) (e : OrientedEdge) (val : E) :
    Option E × Graph V E :=
  match alLookup e.fst g.adj_list with
  | none => (none, g)
  | some row =>
      ((alInsert e.snd val row).2,
       ⟨alUpdate e.fst (fun _ => (alInsert e.snd val row).1) g.adj_list, g.vertices⟩)

/-- `Graph::remove_edge`: `self.adj_list.get_mut(&edge.0)?.remove(&edge.1)`. -/
def remove_edge {V E : Type} (g : Graph V E) (e : OrientedEdge) :
    Option E × Graph V E :=
  match alLookup e.fst g.adj_list with
  | none => (none, g)
  | some row =>
      (alLookup e.snd row,
       ⟨alUpdate e.fst (fun _ => eraseKey e.snd row) g.adj_list, g.vertices⟩)

/-- `Graph::get_adjacents`: the destination keys of the adjacency row of
`vertex`, or `none` when there is no row. -/
def get_adjacents {V E : Type} (g : Graph V E) (vertex : VertexId) :
    Option (List VertexId) :=
  (alLookup vertex g.adj_list).map (fun row => row.map Prod.fst)

/-- `Graph::get_vertex_value`. -/
def get_vertex_value {V E : Type} (g : Graph V E) (vertex : VertexId) : Option V :=
  alLookup vertex g.vertices

/-!
### BFS traversal

The inner `while !queue.is_empty()` loop of `Graph::traverse_bfs`.  The Rust
loop body `pop_front().unwrap()` / `adj_list.get(&current_vertex).unwrap()`
panics when the dequeued id has no adjacency row; a panic is embedded as
`none`.  Each loop iteration dequeues an id that was enqueued exactly once
(the `used` guard), and at most `|vertices| + Σ |rows|` distinct ids are
ever enqueued, so the fuel passed by `traverse_bfs` is never exhausted on a
run the Rust loop completes; running out of fuel also yields `none`.
-/

/-- One BFS component walk: returns the extended output sequence and the
extended visited set, or `none` for the `unwrap` panic on a missing
adjacency row. -/
def bfsLoop {E : Type} (adj : List (Nat × List (Nat × E))) :
    Nat → List Nat → List Nat → List Nat → Option (List Nat × List Nat)
  | 0, _, _, _ => none
  | _ + 1, [], used, acc => some (acc, used)
  | fuel + 1, c :: rest, used, acc =>
      match alLookup c adj with
      | none => none
      | some row =>
          let step := row.foldl
            (fun (p : List Nat × List Nat) a =>
              if a.1 ∈ p.2 then p else (p.1 ++ [a.1], p.2 ++ [a.1]))
            (rest, used)
          bfsLoop adj fuel step.1 step.2 (acc ++ [c])

/-- The outer `for start_vertex in self.vertices.keys()` loop of
`Graph::traverse_bfs`. -/
def bfsOuter {E : Type} (adj : List (Nat × List (Nat × E))) (fuel : Nat) :
    List Nat → List Nat → List Nat → Option (List Nat)
  | [], _, acc => some acc
  | s :: starts, used, acc =>
      if s ∈ used then bfsOuter adj fuel starts used acc
      else
        match bfsLoop adj fuel [s] (used ++ [s]) acc with
        | none => none
        | some (acc', used') => bfsOuter adj fuel starts used' acc'

/-- `Graph::traverse_bfs`; `none` embeds a panic of the Rust code. -/
def traverse_bfs {V E : Type} (g : Graph V E) : Option (List VertexId) :=
  let fuel := g.vertices.length + (g.adj_list.map (fun p => p.2.length)).sum + 1
  bfsOuter g.adj_list fuel (g.vertices.map Prod.fst) [] []

/-!
### Reachable graphs

The graphs constructible through the public operations, starting from
`Graph::new()`.  All ids passed by a caller are `u32` values, hence the
`< 2 ^ 32` bounds.
-/

/-- The graphs reachable from `Graph::new()` through the four mutation
operations. -/
inductive Reachable {V E : Type} : Graph V E → Prop where
  | empty : Reachable Graph.new
  | insNode {g : Graph V E} {id : VertexId} {v : V} :
      Reachable g → id < 2 ^ 32 → Reachable (insert_node g id v).2
  | rmNode {g : Graph V E} {id : VertexId} :
      Reachable g → id < 2 ^ 32 → Reachable (remove_node g id).2
  | insEdge {g : Graph V E} {e : OrientedEdge} {val : E} :
      Reachable g → e.fst < 2 ^ 32 → e.snd < 2 ^ 32 →
      Reachable (insert_edge g e val).2
  | rmEdge {g : Graph V E} {e : OrientedEdge} :
      Reachable g → e.fst < 2 ^ 32 → e.snd < 2 ^ 32 →
      Reachable (remove_edge g e).2

/-- Left-biased choice on `Option` (the value a `HashMap` lookup would see
when one store shadows another). -/
def optOr {α : Type} : Option α → Option α → Option α
  | some a, _ => some a
  | none, b => b

@[simp] theorem optOr_some {α : Type} (a : α) (b : Option α) : optOr (some a) b = some a := rfl

@[simp] theorem optOr_none {α : Type} (b : Option α) : optOr none b = b := rfl

/-! ### Association-list lemmas -/

theorem alLookup_alInsert {α : Type} (k k' : Nat) (v : α) (l : List (Nat × α)) :
    alLookup k' (alInsert k v l).1 = if k = k' then some v else alLookup k' l := by
  induction l with
  | nil => simp [alInsert, alLookup]
  | cons p rest ih =>
      by_cases h : p.1 = k <;> by_cases h1 : p.1 = k' <;> by_cases h2 : k = k' <;>
        simp_all [alInsert, alLookup]

theorem alInsert_snd {α : Type} (k : Nat) (v : α) (l : List (Nat × α)) :
    (alInsert k v l).2 = alLookup k l := by
  induction l with
  | nil => simp [alInsert, alLookup]
  | cons p rest ih => by_cases h : p.1 = k <;> simp_all [alInsert, alLookup]

theorem alLookup_eraseKey {α : Type} (k k' : Nat) (l : List (Nat × α)) :
    alLookup k' (eraseKey k l) = if k' = k then none else alLookup k' l := by
  induction l with
  | nil => simp [eraseKey, alLookup]
  | cons p rest ih =>
      by_cases h : p.1 = k <;> by_cases h1 : p.1 = k' <;> by_cases h2 : k' = k <;>
        simp_all [eraseKey, alLookup]

theorem eraseKey_sublist {α : Type} (k : Nat) (l : List (Nat × α)) :
    (eraseKey k l).Sublist l := by
  induction l with
  | nil => simp [eraseKey]
  | cons p rest ih =>
      by_cases h : p.1 = k
      · simpa [eraseKey, h] using List.Sublist.cons p ih
      · simpa [eraseKey, h] using List.Sublist.cons₂ p ih

theorem alLookup_alUpdate {α : Type} (k k' : Nat) (f : α → α) (l : List (Nat × α)) :
    alLookup k' (alUpdate k f l) =
      if k' = k then (alLookup k l).map f else alLookup k' l := by
  induction l with
  | nil => simp [alUpdate, alLookup]
  | cons p rest ih =>
      by_cases h : p.1 = k <;> by_cases h1 : p.1 = k' <;> by_cases h2 : k' = k <;>
        simp_all [alUpdate, alLookup]

theorem keys_alUpdate {α : Type} (k : Nat) (f : α → α) (l : List (Nat × α)) :
    (alUpdate k f l).map Prod.fst = l.map Prod.fst := by
  induction l with
  | nil => rfl
  | cons p rest ih => by_cases h : p.1 = k <;> simp_all [alUpdate]

theorem alLookup_mapVal {α β : Type} (k : Nat) (f : α → β) (l : List (Nat × α)) :
    alLookup k (l.map (fun p => (p.1, f p.2))) = (alLookup k l).map f := by
  induction l with
  | nil => rfl
  | cons p rest ih => by_cases h : p.1 = k <;> simp_all [alLookup]

theorem keys_mapVal {α β : Type} (f : α → β) (l : List (Nat × α)) :
    (l.map (fun p => (p.1, f p.2))).map Prod.fst = l.map Prod.fst := by
  induction l with
  | nil => rfl
  | cons p rest ih => simp_all

theorem alLookup_isSome_iff {α : Type} (k : Nat) (l : List (Nat × α)) :
    (alLookup k l).isSome = true ↔ k ∈ l.map Prod.fst := by
  induction l with
  | nil => simp [alLookup]
  | cons p rest ih =>
      by_cases h : p.1 = k
      · simp [alLookup, h]
      · simp [alLookup, h, ih, Ne.symm h]

theorem alLookup_append_left {α : Type} (k : Nat) (v : α) (l l' : List (Nat × α))
    (h : alLookup k l = some v) : alLookup k (l ++ l') = some v := by
  induction l with
  | nil => simp [alLookup] at h
  | cons p rest ih =>
      by_cases hp : p.1 = k <;> simp_all [alLookup]

theorem alLookup_append_right {α : Type} (k : Nat) (l l' : List (Nat × α))
    (h : alLookup k l = none) : alLookup k (l ++ l') = alLookup k l' := by
  induction l with
  | nil => rfl
  | cons p rest ih =>
      by_cases hp : p.1 = k <;> simp_all [alLookup]

theorem mem_keys_alInsert {α : Type} (k k' : Nat) (v : α) (l : List (Nat × α)) :
    k' ∈ (alInsert k v l).1.map Prod.fst ↔ k' = k ∨ k' ∈ l.map Prod.fst := by
  rw [← alLookup_isSome_iff, ← alLookup_isSome_iff, alLookup_alInsert]
  by_cases h : k = k'
  · simp [h]
  · simp [h, Ne.symm h]

theorem mem_keys_eraseKey {α : Type} (k k' : Nat) (l : List (Nat × α)) :
    k' ∈ (eraseKey k l).map Prod.fst ↔ k' ≠ k ∧ k' ∈ l.map Prod.fst := by
  rw [← alLookup_isSome_iff, ← alLookup_isSome_iff, alLookup_eraseKey]
  by_cases h : k' = k <;> simp [h]

theorem not_mem_keys_eraseKey {α : Type} (k : Nat) (l : List (Nat × α)) :
    k ∉ (eraseKey k l).map Prod.fst := by
  intro h
  exact ((mem_keys_eraseKey k k l).mp h).1 rfl

theorem mem_keys_entryOrEmpty {E : Type} (k k' : Nat) (l : List (Nat × List (Nat × E))) :
    k' ∈ (entryOrEmpty k l).map Prod.fst ↔ k' = k ∨ k' ∈ l.map Prod.fst := by
  unfold entryOrEmpty
  cases hl : alLookup k l with
  | none => simp [List.mem_append, or_comm]
  | some row =>
      simp only []
      constructor
      · exact Or.inr
      · rintro (rfl | h)
        · exact (alLookup_isSome_iff k' l).mp (by simp [hl])
        · exact h

@[simp] theorem optOr_none_right {α : Type} (a : Option α) : optOr a none = a := by
  cases a <;> rfl

/-! ### Mutation-operation facts -/

/-- After `remove_node g id`, no adjacency row mentions `id` as a
destination: shared workhorse for the removal claims. -/
theorem remove_node_adjacents_lemma {V E : Type} (g : Graph V E) (id v : VertexId)
    (l : List VertexId) (h : get_adjacents (remove_node g id).2 v = some l) : id ∉ l := by
  simp only [get_adjacents, remove_node] at h
  rw [alLookup_eraseKey] at h
  by_cases hv : v = id
  · simp [hv] at h
  · rw [if_neg hv, alLookup_mapVal] at h
    cases hrow : alLookup v g.adj_list with
    | none => rw [hrow] at h; simp at h
    | some row =>
        rw [hrow] at h
        simp only [Option.map_some', Option.some.injEq] at h
        rw [← h]
        exact not_mem_keys_eraseKey id row

/-- **C5.** After `remove_node(id)` on any graph, `get_adjacents(id)`
returns nothing; for every other vertex `v`, the sequence returned by
`get_adjacents(v)` does not contain `id`; and `remove_node` returns the
removed vertex's value when `id` was present, else nothing. -/
theorem remove_node_clears_vertex_and_incoming {V E : Type} (g : Graph V E) (id : VertexId) :
    get_adjacents (remove_node g id).2 id = none
    ∧ (∀ v l, v ≠ id → get_adjacents (remove_node g id).2 v = some l → id ∉ l)
    ∧ (remove_node g id).1 = alLookup id g.vertices := by
  refine ⟨?_, ?_, rfl⟩
  · simp [get_adjacents, remove_node, alLookup_eraseKey]
  · intro v l _ h
    exact remove_node_adjacents_lemma g id v l h

def gC5 : Graph Nat Nat :=
  (insert_edge (insert_node (insert_node Graph.new 1 10).2 2 20).2 ⟨2, 1⟩ 5).2

/-- Witness for the C5 theorem at the concrete graph
`{1 ↦ 10, 2 ↦ 20}` with the edge `2 → 1`, removing vertex `1`. -/
theorem remove_node_clears_vertex_and_incoming_witness :
    (1 : Nat) ∉ ([] : List Nat) ∧ get_adjacents (remove_node gC5 1).2 1 = none :=
  ⟨(remove_node_clears_vertex_and_incoming gC5 1).2.1 2 [] (by decide) rfl,
   (remove_node_clears_vertex_and_incoming gC5 1).1⟩

/-- A sequence of `insert_node` calls, in order. -/
def applyInserts {V E : Type} : List (Nat × V) → Graph V E → Graph V E
  | [], g => g
  | p :: rest, g => applyInserts rest (insert_node g p.1 p.2).2

/-- The value of the most recent insertion of `id` in a call sequence. -/
def lastVal {V : Type} (id : Nat) : List (Nat × V) → Option V
  | [] => none
  | p :: rest => optOr (lastVal id rest) (if p.1 = id then some p.2 else none)

theorem lookup_applyInserts {V E : Type} (ops : List (Nat × V)) (g : Graph V E)
    (id : VertexId) :
    alLookup id (applyInserts ops g).vertices =
      optOr (lastVal id ops) (alLookup id g.vertices) := by
  induction ops generalizing g with
  | nil => simp [applyInserts, lastVal]
  | cons p rest ih =>
      simp only [applyInserts, lastVal]
      rw [ih]
      simp only [insert_node]
      rw [alLookup_alInsert]
      cases hl : lastVal id rest <;> by_cases hp : p.1 = id <;> simp [hp, optOr]

/-- **C6.** After any sequence of `insert_node` calls from the empty graph,
the vertex-value store maps exactly the distinct inserted ids, each to the
value of its most recent insertion; and every `insert_node` call returns the
previous value of the id (nothing when absent). -/
theorem insert_node_sequence_semantics {V E : Type} :
    (∀ (ops : List (Nat × V)) (id : VertexId),
        alLookup id (applyInserts ops (Graph.new : Graph V E)).vertices = lastVal id ops)
    ∧ ∀ (g : Graph V E) (id : VertexId) (v : V),
        (insert_node g id v).1 = alLookup id g.vertices := by
  constructor
  · intro ops id
    rw [lookup_applyInserts]
    simp [Graph.new, alLookup]
  · intro g id v
    simp [insert_node, alInsert_snd]

/-- **C7.** `insert_edge` whose source has no adjacency row returns nothing
and leaves the whole graph unchanged. -/
theorem insert_edge_unknown_from_noop {V E : Type} (g : Graph V E) (e : OrientedEdge)
    (val : E) (h : alLookup e.fst g.adj_list = none) :
    insert_edge g e val = (none, g) := by
  simp [insert_edge, h]

/-- Witness for the C7 theorem: inserting the edge `1 → 2` into the empty
graph does nothing. -/
theorem insert_edge_unknown_from_noop_witness :
    insert_edge (Graph.new : Graph Nat Nat) ⟨1, 2⟩ 5 = (none, Graph.new) :=
  insert_edge_unknown_from_noop Graph.new ⟨1, 2⟩ 5 rfl

/-- **C10.** `remove_node` on a never-inserted (or already removed) id
returns nothing, yet still prunes every dangling edge pointing to that id
from every adjacency row. -/
theorem remove_node_unknown_id_prunes_dangling {V E : Type} (g : Graph V E) (id : VertexId)
    (h : alLookup id g.vertices = none) :
    (remove_node g id).1 = none
    ∧ ∀ v l, get_adjacents (remove_node g id).2 v = some l → id ∉ l :=
  ⟨h, fun v l hl => remove_node_adjacents_lemma g id v l hl⟩

def gC10 : Graph Nat Nat := (insert_edge (insert_node Graph.new 1 10).2 ⟨1, 2⟩ 5).2

/-- Witness for the C10 theorem: the graph `{1 ↦ 10}` with dangling edge
`1 → 2`; removing the never-inserted vertex `2` returns nothing and prunes
the dangling edge out of the row of `1`. -/
theorem remove_node_unknown_id_prunes_dangling_witness :
    (remove_node gC10 2).1 = none ∧ (2 : Nat) ∉ ([] : List Nat) :=
  ⟨(remove_node_unknown_id_prunes_dangling gC10 2 rfl).1,
   (remove_node_unknown_id_prunes_dangling gC10 2 rfl).2 1 [] rfl⟩

/-! ### BFS and the dangling-destination panic (C1, C2) -/

def gC1 : Graph Nat Nat := (insert_edge (insert_node Graph.new 1 10).2 ⟨1, 2⟩ 5).2

/-- **C1.** (code bug) The reachable graph `{1 ↦ 10}` with the dangling edge
`1 → 2` has one vertex, yet `traverse_bfs` does not produce a one-element
sequence: it dequeues the dangling destination `2` and panics on
`adj_list.get(&2).unwrap()` (embedded as `none`). -/
theorem traverse_bfs_panics_on_dangling_edge :
    Reachable gC1 ∧ gC1.vertices.map Prod.fst = [1] ∧ traverse_bfs gC1 = none :=
  ⟨Reachable.insEdge (Reachable.insNode Reachable.empty (by decide)) (by decide) (by decide),
   rfl, rfl⟩

def gC2 : Graph Nat Nat := (insert_edge (insert_node Graph.new 3 7).2 ⟨3, 4⟩ 1).2

/-- **C2.** (code bug) On the reachable graph `{3 ↦ 7}` with the dangling
edge `3 → 4`, the internal adjacency unwrap of `traverse_bfs` is reached
with the absent key `4`, so the traversal panics (embedded as `none`)
instead of signalling absence. -/
theorem traverse_bfs_unwrap_reached_with_absent_key :
    Reachable gC2 ∧ alLookup 4 gC2.adj_list = none ∧ traverse_bfs gC2 = none :=
  ⟨Reachable.insEdge (Reachable.insNode Reachable.empty (by decide)) (by decide) (by decide),
   rfl, rfl⟩

/-! ### Lockstep invariant (C3) -/

/-- **C3.** For every graph reachable from the empty graph through the four
mutation operations, the key set of the vertex-value store equals the key
set of the adjacency store. -/
theorem reachable_lockstep {V E : Type} (g : Graph V E) (h : Reachable g) (id : VertexId) :
    id ∈ g.vertices.map Prod.fst ↔ id ∈ g.adj_list.map Prod.fst := by
  induction h with
  | empty => simp [Graph.new]
  | insNode hr hb ih =>
      simp only [insert_node, mem_keys_alInsert, mem_keys_entryOrEmpty]
      rw [ih]
  | rmNode hr hb ih =>
      simp only [remove_node, mem_keys_eraseKey, keys_mapVal]
      rw [ih]
  | insEdge hr hb1 hb2 ih =>
      rename_i g' e val
      cases hrow : alLookup e.fst g'.adj_list with
      | none => simpa [insert_edge, hrow] using ih
      | some row => simpa [insert_edge, hrow, keys_alUpdate] using ih
  | rmEdge hr hb1 hb2 ih =>
      rename_i g' e
      cases hrow : alLookup e.fst g'.adj_list with
      | none => simpa [remove_edge, hrow] using ih
      | some row => simpa [remove_edge, hrow, keys_alUpdate] using ih

def gC3 : Graph Nat Nat := (insert_node Graph.new 1 10).2

/-- Witness for the C3 theorem at the reachable graph `{1 ↦ 10}`. -/
theorem reachable_lockstep_witness :
    1 ∈ gC3.vertices.map Prod.fst ↔ 1 ∈ gC3.adj_list.map Prod.fst :=
  reachable_lockstep gC3 (Reachable.insNode Reachable.empty (by decide)) 1

/-!
### Strings, decimal numerals, and the text format

Strings are embedded as `List Char`.  `trim` is modelled over the ASCII
whitespace characters (the only ones the serializer can produce);
`str::lines` is modelled as splitting at `'\n'` with an optional final line
terminator and a `'\r'` stripped from the end of each line.
-/

/-- The decimal digit characters (`u32`/`Display` rendering). -/
def digitChar : Nat → Char
  | 0 => '0'
  | 1 => '1'
  | 2 => '2'
  | 3 => '3'
  | 4 => '4'
  | 5 => '5'
  | 6 => '6'
  | 7 => '7'
  | 8 => '8'
  | 9 => '9'
  | _ => 'X'

/-- Inverse of `digitChar` (one step of `u32::from_str`). -/
def charToDigit (c : Char) : Option Nat :=
  if c = '0' then some 0
  else if c = '1' then some 1
  else if c = '2' then some 2
  else if c = '3' then some 3
  else if c = '4' then some 4
  else if c = '5' then some 5
  else if c = '6' then some 6
  else if c = '7' then some 7
  else if c = '8' then some 8
  else if c = '9' then some 9
  else none

/-- Decimal rendering of a natural number, most significant digit first
(`u32`'s `Display`, via `to_string()`). -/
def natToStr (n : Nat) : List Char :=
  if _h : n < 10 then [digitChar n]
  else natToStr (n / 10) ++ [digitChar (n % 10)]
decreasing_by
  exact Nat.div_lt_self (by omega) (by omega)

/-- Accumulating decimal parse over a digit string. -/
def parseNatAux : List Char → Nat → Option Nat
  | [], acc => some acc
  | c :: rest, acc =>
      match charToDigit c with
      | none => none
      | some d => parseNatAux rest (acc * 10 + d)

/-- The digit part of `parseU32`: a non-empty digit string whose value
fits in 32 bits. -/
def parseU32Body (s : List Char) : Option Nat :=
  if s = [] then none
  else
    match parseNatAux s 0 with
    | none => none
    | some n => if n < 2 ^ 32 then some n else none

/-- `str::parse::<u32>()`: an optional leading `'+'`, then a non-empty
digit string whose value fits in 32 bits. -/
def parseU32 (s : List Char) : Option Nat :=
  match s with
  | [] => parseU32Body []
  | x :: rest => if x = '+' then parseU32Body rest else parseU32Body (x :: rest)

/-- `str::split_once(c)`: split at the first occurrence of `c`, which is
dropped; `none` when `c` does not occur. -/
def splitOnceChar (c : Char) : List Char → Option (List Char × List Char)
  | [] => none
  | x :: xs =>
      if x = c then some ([], xs)
      else (splitOnceChar c xs).map (fun p => (x :: p.1, p.2))

/-- The ASCII whitespace characters relevant to this format. -/
def isWs (c : Char) : Bool :=
  c = ' ' || c = '\t' || c = '\n' || c = '\r'

/-- `str::trim()` (over the ASCII whitespace subset). -/
def trimList (s : List Char) : List Char :=
  ((s.dropWhile isWs).reverse.dropWhile isWs).reverse

/-- Split at every `'\n'` (all separators dropped, empty segments kept). -/
def splitLines : List Char → List (List Char)
  | [] => [[]]
  | c :: rest =>
      if c = '\n' then [] :: splitLines rest
      else
        match splitLines rest with
        | [] => [[c]]
        | h :: t => (c :: h) :: t

/-- Drop one trailing `'\r'` (the `\r\n` tolerance of `str::lines`). -/
def stripCR (l : List Char) : List Char :=
  if l.getLast? = some '\r' then l.dropLast else l

/-- `str::lines()`: split at `'\n'`, final line terminator optional, one
trailing `'\r'` removed per line. -/
def linesOf (s : List Char) : List (List Char) :=
  if s = [] then []
  else
    (if (splitLines s).getLast? = some [] then (splitLines s).dropLast
     else splitLines s).map stripCR

/-- One serialized vertex line `"<id> <value>"` (without the newline). -/
def vertexLine {V : Type} (dV : V → List Char) (p : Nat × V) : List Char :=
  natToStr p.1 ++ ' ' :: dV p.2

/-- One serialized edge line `"<from> <to> <value>"` (without the newline). -/
def edgeLine {E : Type} (dE : E → List Char) (f : Nat) (q : Nat × E) : List Char :=
  natToStr f ++ ' ' :: (natToStr q.1 ++ ' ' :: dE q.2)

/-- The text `Graph::serialize_to` renders and writes: one line per vertex,
a `"#"` separator line, then one line per adjacency-store entry.  `dV`/`dE`
are the `Display` conversions of the payload types. -/
def serializeGraph {V E : Type} (dV : V → List Char) (dE : E → List Char)
    (g : Graph V E) : List Char :=
  (g.vertices.map (fun p => vertexLine dV p ++ ['\n'])).flatten
  ++ '#' :: '\n' ::
  (g.adj_list.map (fun p => (p.2.map (fun q => edgeLine dE p.1 q ++ ['\n'])).flatten)).flatten

/-- The failure cases of `Graph::deserialize_from` (I/O apart): the three
format errors, by their message, and value/id parse failures. -/
inductive DeError where
  | sepMissing
  | vertexValueMissing
  | vertexToMissing
  | edgeValueMissing
  | parseError
deriving DecidableEq

/-- The body of the vertex-section loop of `deserialize_from`: split the
line at the first space (`ok_or` a format error), parse the id and the
value (`?`), `insert_node`. -/
def stepVertexLine {V E : Type} (pV : List Char → Option V) (line : List Char)
    (g : Graph V E) : Except DeError (Graph V E) :=
  match splitOnceChar ' ' line with
  | none => .error .vertexValueMissing
  | some (idTok, valTok) =>
      match parseU32 (trimList idTok) with
      | none => .error .parseError
      | some id =>
          match pV (trimList valTok) with
          | none => .error .parseError
          | some v => .ok (insert_node g id v).2

/-- The vertex-section loop of `deserialize_from`. -/
def insertVertices {V E : Type} (pV : List Char → Option V) :
    List (List Char) → Graph V E → Except DeError (Graph V E)
  | [], g => .ok g
  | line :: rest, g =>
      match stepVertexLine pV line g with
      | .error err => .error err
      | .ok g' => insertVertices pV rest g'

/-- The body of the edge-section loop of `deserialize_from`: split at the
first space, split the remainder at its first space (format errors), parse
`from`/`to`/value (`?`), `insert_edge`. -/
def stepEdgeLine {V E : Type} (pE : List Char → Option E) (line : List Char)
    (g : Graph V E) : Except DeError (Graph V E) :=
  match splitOnceChar ' ' line with
  | none => .error .vertexToMissing
  | some (fromTok, suffix) =>
      match splitOnceChar ' ' suffix with
      | none => .error .edgeValueMissing
      | some (toTok, valTok) =>
          match parseU32 (trimList fromTok) with
          | none => .error .parseError
          | some f =>
              match parseU32 (trimList toTok) with
              | none => .error .parseError
              | some t =>
                  match pE (trimList valTok) with
                  | none => .error .parseError
                  | some val => .ok (insert_edge g ⟨f, t⟩ val).2

/-- The edge-section loop of `deserialize_from`. -/
def insertEdges {V E : Type} (pE : List Char → Option E) :
    List (List Char) → Graph V E → Except DeError (Graph V E)
  | [], g => .ok g
  | line :: rest, g =>
      match stepEdgeLine pE line g with
      | .error err => .error err
      | .ok g' => insertEdges pE rest g'

/-- `Graph::deserialize_from` on file content `input`: split at the first
`'#'`, trim both sections, process the vertex lines then the edge lines.
`pV`/`pE` are the `FromStr` conversions of the payload types. -/
def deserializeGraph {V E : Type} (pV : List Char → Option V) (pE : List Char → Option E)
    (input : List Char) : Except DeError (Graph V E) :=
  match splitOnceChar '#' input with
  | none => .error .sepMissing
  | some (vsec, esec) =>
      match insertVertices pV (linesOf (trimList vsec)) Graph.new with
      | .error err => .error err
      | .ok g => insertEdges pE (linesOf (trimList esec)) g

/-! ### Splitting lemmas and error propagation -/

theorem splitOnceChar_eq_none {c : Char} {s : List Char} (h : c ∉ s) :
    splitOnceChar c s = none := by
  induction s with
  | nil => rfl
  | cons x xs ih =>
      simp only [List.mem_cons, not_or] at h
      simp [splitOnceChar, Ne.symm h.1, ih h.2]

theorem splitOnceChar_append {c : Char} {a : List Char} (h : c ∉ a) (b : List Char) :
    splitOnceChar c (a ++ c :: b) = some (a, b) := by
  induction a with
  | nil => simp [splitOnceChar]
  | cons x xs ih =>
      simp only [List.mem_cons, not_or] at h
      simp [splitOnceChar, Ne.symm h.1, ih h.2]

theorem insertVertices_append {V E : Type} (pV : List Char → Option V)
    (a b : List (List Char)) (g : Graph V E) :
    insertVertices pV (a ++ b) g =
      match insertVertices pV a g with
      | .error err => .error err
      | .ok g' => insertVertices pV b g' := by
  induction a generalizing g with
  | nil => simp [insertVertices]
  | cons line rest ih =>
      simp only [List.cons_append, insertVertices]
      cases stepVertexLine pV line g with
      | error err => rfl
      | ok g' => exact ih g'

theorem insertEdges_append {V E : Type} (pE : List Char → Option E)
    (a b : List (List Char)) (g : Graph V E) :
    insertEdges pE (a ++ b) g =
      match insertEdges pE a g with
      | .error err => .error err
      | .ok g' => insertEdges pE b g' := by
  induction a generalizing g with
  | nil => simp [insertEdges]
  | cons line rest ih =>
      simp only [List.cons_append, insertEdges]
      cases stepEdgeLine pE line g with
      | error err => rfl
      | ok g' => exact ih g'

/-- **C8.** `deserialize_from` fails with the separator format error when
the content has no `'#'`; with the vertex format error when a (first
offending) non-empty vertex line has no space; and with a parse error when
an id token does not parse as a `u32`.  In each case an `error` — never a
graph — is returned. -/
theorem deserialize_error_cases {V E : Type} (pV : List Char → Option V)
    (pE : List Char → Option E) :
    (∀ input : List Char, '#' ∉ input →
        deserializeGraph pV pE input =
          (Except.error DeError.sepMissing : Except DeError (Graph V E)))
    ∧ (∀ (input vsec esec bad : List Char) (pre rest : List (List Char)) (g1 : Graph V E),
        splitOnceChar '#' input = some (vsec, esec) →
        linesOf (trimList vsec) = pre ++ bad :: rest →
        insertVertices pV pre Graph.new = .ok g1 →
        bad ≠ [] → ' ' ∉ bad →
        deserializeGraph pV pE input = .error .vertexValueMissing)
    ∧ (∀ (input vsec esec bad idTok valTok : List Char) (pre rest : List (List Char))
        (g1 : Graph V E),
        splitOnceChar '#' input = some (vsec, esec) →
        linesOf (trimList vsec) = pre ++ bad :: rest →
        insertVertices pV pre Graph.new = .ok g1 →
        splitOnceChar ' ' bad = some (idTok, valTok) →
        parseU32 (trimList idTok) = none →
        deserializeGraph pV pE input = .error .parseError) := by
  refine ⟨?_, ?_, ?_⟩
  · intro input h
    simp [deserializeGraph, splitOnceChar_eq_none h]
  · intro input vsec esec bad pre rest g1 hsplit hlines hpre _ hbad
    simp only [deserializeGraph, hsplit, hlines, insertVertices_append, hpre]
    simp [insertVertices, stepVertexLine, splitOnceChar_eq_none hbad]
  · intro input vsec esec bad idTok valTok pre rest g1 hsplit hlines hpre hsp hparse
    simp only [deserializeGraph, hsplit, hlines, insertVertices_append, hpre]
    simp [insertVertices, stepVertexLine, hsp, hparse]

/-- `bool`'s `Display` rendering, for concrete instantiations. -/
def displayBool : Bool → List Char := fun b => if b then ['t'] else ['f']

/-- A `FromStr` for the one-character `Bool` rendering. -/
def parseBool (s : List Char) : Option Bool :=
  if s = ['t'] then some true else if s = ['f'] then some false else none

/-- Witness for the C8 theorem: the contents `"a"` (no separator), `"x#"`
(vertex line without a space) and `"z t#"` (non-numeric id). -/
theorem deserialize_error_cases_witness :
    deserializeGraph parseBool parseBool ['a'] =
      (Except.error DeError.sepMissing : Except DeError (Graph Bool Bool))
    ∧ deserializeGraph parseBool parseBool ['x', '#'] =
      (Except.error DeError.vertexValueMissing : Except DeError (Graph Bool Bool))
    ∧ deserializeGraph parseBool parseBool ['z', ' ', 't', '#'] =
      (Except.error DeError.parseError : Except DeError (Graph Bool Bool)) :=
  ⟨(deserialize_error_cases parseBool parseBool).1 ['a'] (by decide),
   (deserialize_error_cases parseBool parseBool).2.1 ['x', '#'] ['x'] [] ['x'] [] []
     Graph.new rfl rfl rfl (by decide) (by decide),
   (deserialize_error_cases parseBool parseBool).2.2 ['z', ' ', 't', '#'] ['z', ' ', 't']
     [] ['z', ' ', 't'] ['z'] ['t'] [] [] Graph.new rfl rfl rfl rfl rfl⟩

/-- **C9.** During deserialization, an edge line whose `from` id parses but
has no adjacency row (was not declared in the vertex section) is silently
dropped: the edge-section loop returns exactly what it returns without that
line — no error is reported, no edge or other state change results. -/
theorem deserialize_drops_unknown_from_edge {V E : Type} (pE : List Char → Option E)
    (g : Graph V E) (fTok tTok valTok : List Char) (rest : List (List Char))
    (f t : Nat) (val : E)
    (hf : ' ' ∉ fTok) (ht : ' ' ∉ tTok)
    (hpf : parseU32 (trimList fTok) = some f)
    (hpt : parseU32 (trimList tTok) = some t)
    (hpv : pE (trimList valTok) = some val)
    (hrow : alLookup f g.adj_list = none) :
    insertEdges pE ((fTok ++ ' ' :: (tTok ++ ' ' :: valTok)) :: rest) g =
      insertEdges pE rest g := by
  simp only [insertEdges, stepEdgeLine, splitOnceChar_append hf,
    splitOnceChar_append ht, hpf, hpt, hpv, insert_edge, hrow]

/-- Witness for the C9 theorem: the edge line `"5 3 t"` on the empty graph
(no vertex `5`) is dropped and deserialization of the edge section
succeeds. -/
theorem deserialize_drops_unknown_from_edge_witness :
    insertEdges parseBool [['5', ' ', '3', ' ', 't']] (Graph.new : Graph Bool Bool) =
      .ok Graph.new :=
  deserialize_drops_unknown_from_edge parseBool Graph.new ['5'] ['3'] ['t'] [] 5 3 true
    (by decide) (by decide) rfl rfl rfl rfl

/-! ### Decimal numerals: rendering and parsing round-trip -/

theorem charToDigit_digitChar (d : Nat) (h : d < 10) :
    charToDigit (digitChar d) = some d := by
  interval_cases d <;> rfl

theorem digitChar_facts (d : Nat) (h : d < 10) :
    isWs (digitChar d) = false ∧ digitChar d ≠ '#' ∧ digitChar d ≠ ' '
    ∧ digitChar d ≠ '+' ∧ digitChar d ≠ '\n' := by
  interval_cases d <;> decide

theorem natToStr_ne_nil (n : Nat) : natToStr n ≠ [] := by
  rw [natToStr]
  split <;> simp

theorem natToStr_digits (n : Nat) : ∀ c ∈ natToStr n, ∃ d, d < 10 ∧ c = digitChar d := by
  induction n using Nat.strong_induction_on with
  | _ n ih =>
      rw [natToStr]
      split
      case isTrue h =>
          intro c hc
          simp only [List.mem_singleton] at hc
          exact ⟨n, h, hc⟩
      case isFalse h =>
          intro c hc
          rw [List.mem_append] at hc
          rcases hc with hc | hc
          · exact ih (n / 10) (Nat.div_lt_self (by omega) (by omega)) c hc
          · simp only [List.mem_singleton] at hc
            exact ⟨n % 10, Nat.mod_lt n (by omega), hc⟩

theorem natToStr_props {n : Nat} {c : Char} (h : c ∈ natToStr n) :
    isWs c = false ∧ c ≠ '#' ∧ c ≠ ' ' ∧ c ≠ '+' ∧ c ≠ '\n' := by
  obtain ⟨d, hd, hc⟩ := natToStr_digits n c h
  subst hc
  exact digitChar_facts d hd

theorem natToStr_no_space (n : Nat) : ' ' ∉ natToStr n :=
  fun h => (natToStr_props h).2.2.1 rfl

theorem natToStr_no_hash (n : Nat) : '#' ∉ natToStr n :=
  fun h => (natToStr_props h).2.1 rfl

theorem natToStr_no_newline (n : Nat) : '\n' ∉ natToStr n :=
  fun h => (natToStr_props h).2.2.2.2 rfl

theorem parseNatAux_append_some (s t : List Char) (acc m : Nat)
    (h : parseNatAux s acc = some m) :
    parseNatAux (s ++ t) acc = parseNatAux t m := by
  induction s generalizing acc with
  | nil =>
      simp only [parseNatAux, Option.some.injEq] at h
      rw [List.nil_append, h]
  | cons c cs ih =>
      simp only [parseNatAux] at h ⊢
      cases hd : charToDigit c with
      | none => rw [hd] at h; exact absurd h (by simp)
      | some d =>
          rw [hd] at h
          exact ih (acc * 10 + d) h

theorem parseNatAux_natToStr (n : Nat) : ∀ acc : Nat,
    parseNatAux (natToStr n) acc = some (acc * 10 ^ (natToStr n).length + n) := by
  induction n using Nat.strong_induction_on with
  | _ n ih =>
      intro acc
      rw [natToStr]
      split
      case isTrue h =>
          simp [parseNatAux, charToDigit_digitChar n h]
      case isFalse h =>
          have hdiv := Nat.div_lt_self (n := n) (by omega) (by omega : 1 < 10)
          rw [parseNatAux_append_some _ _ _ _ (ih (n / 10) hdiv acc)]
          simp only [parseNatAux, charToDigit_digitChar (n % 10) (Nat.mod_lt n (by omega)),
            List.length_append, List.length_cons, List.length_nil, Nat.zero_add,
            Option.some.injEq]
          rw [pow_succ, ← Nat.mul_assoc, Nat.add_mul]
          omega

theorem parseU32Body_natToStr (n : Nat) (h : n < 2 ^ 32) :
    parseU32Body (natToStr n) = some n := by
  have hp := parseNatAux_natToStr n 0
  rw [Nat.zero_mul, Nat.zero_add] at hp
  simp [parseU32Body, natToStr_ne_nil n, hp]
  omega

theorem parseU32_natToStr (n : Nat) (h : n < 2 ^ 32) :
    parseU32 (natToStr n) = some n := by
  cases hs : natToStr n with
  | nil => exact absurd hs (natToStr_ne_nil n)
  | cons c cs =>
      have hc : c ≠ '+' := by
        have hm : c ∈ natToStr n := by rw [hs]; exact List.mem_cons_self c cs
        exact (natToStr_props hm).2.2.2.1
      show (if c = '+' then parseU32Body cs else parseU32Body (c :: cs)) = some n
      rw [if_neg hc]
      have hb := parseU32Body_natToStr n h
      rw [hs] at hb
      exact hb

/-! ### Trim and line-splitting lemmas -/

theorem head?_append_left {α : Type} (l t : List α) (h : l ≠ []) :
    (l ++ t).head? = l.head? := by
  cases l with
  | nil => exact absurd rfl h
  | cons a as => rfl

theorem map_id_of {α : Type} (l : List α) (f : α → α) (h : ∀ x ∈ l, f x = x) :
    l.map f = l := by
  induction l with
  | nil => rfl
  | cons a as ih => simp_all

theorem dropWhile_head_false : ∀ l : List Char,
    (∀ c, l.head? = some c → isWs c = false) → l.dropWhile isWs = l
  | [], _ => rfl
  | c :: rest, h => by simp [List.dropWhile_cons, h c rfl]

theorem trimList_eq_self {s : List Char}
    (hh : ∀ c, s.head? = some c → isWs c = false)
    (hl : ∀ c, s.getLast? = some c → isWs c = false) :
    trimList s = s := by
  unfold trimList
  rw [dropWhile_head_false s hh]
  rw [dropWhile_head_false s.reverse
    (fun c hc => hl c (by rwa [List.head?_reverse] at hc))]
  exact List.reverse_reverse s

theorem trimList_cons_ws {c : Char} (h : isWs c = true) (s : List Char) :
    trimList (c :: s) = trimList s := by
  unfold trimList
  rw [List.dropWhile_cons, if_pos h]

theorem trimList_append_newline {s : List Char} (hs : s ≠ [])
    (hh : ∀ c, s.head? = some c → isWs c = false)
    (hl : ∀ c, s.getLast? = some c → isWs c = false) :
    trimList (s ++ ['\n']) = s := by
  unfold trimList
  rw [dropWhile_head_false (s ++ ['\n'])
    (fun c hc => hh c (by rwa [head?_append_left s ['\n'] hs] at hc))]
  have hrev : (s ++ ['\n']).reverse = '\n' :: s.reverse := by
    rw [List.reverse_append]; rfl
  rw [hrev, List.dropWhile_cons, if_pos (by rfl : isWs '\n' = true)]
  rw [dropWhile_head_false s.reverse
    (fun c hc => hl c (by rwa [List.head?_reverse] at hc))]
  exact List.reverse_reverse s

/-- Rows joined by single `'\n'` separators (no trailing newline). -/
def joinSep : List (List Char) → List Char
  | [] => []
  | [r] => r
  | r :: rest => r ++ '\n' :: joinSep rest

theorem flatten_newline_rows : ∀ rows : List (List Char), rows ≠ [] →
    (rows.map (fun r => r ++ ['\n'])).flatten = joinSep rows ++ ['\n']
  | [], h => absurd rfl h
  | [r], _ => by simp [joinSep]
  | r :: s :: t, _ => by
      have hrec := flatten_newline_rows (s :: t) (by simp)
      simp only [List.map_cons, List.flatten_cons] at hrec ⊢
      rw [hrec]
      simp [joinSep]

theorem joinSep_ne_nil : ∀ rows : List (List Char), rows ≠ [] →
    (∀ r ∈ rows, r ≠ []) → joinSep rows ≠ []
  | [], h, _ => absurd rfl h
  | [r], _, hr => by simpa [joinSep] using hr r (by simp)
  | r :: s :: t, _, hr => by simp [joinSep]

theorem head?_joinSep : ∀ (r : List Char) (rest : List (List Char)), r ≠ [] →
    (joinSep (r :: rest)).head? = r.head?
  | r, [], _ => rfl
  | r, s :: t, hr => by
      simp only [joinSep]
      exact head?_append_left r _ hr

theorem getLast?_joinSep : ∀ (rows : List (List Char)) (rLast : List Char),
    rows.getLast? = some rLast → (∀ r ∈ rows, r ≠ []) →
    (joinSep rows).getLast? = rLast.getLast?
  | [], _, h, _ => by simp at h
  | [r], rLast, h, _ => by
      simp only [List.getLast?_singleton, Option.some.injEq] at h
      subst h
      rfl
  | r :: s :: t, rLast, h, hr => by
      rw [List.getLast?_cons_cons] at h
      have hrec := getLast?_joinSep (s :: t) rLast h
        (fun x hx => hr x (List.mem_cons_of_mem r hx))
      have hjne : joinSep (s :: t) ≠ [] :=
        joinSep_ne_nil (s :: t) (by simp) (fun x hx => hr x (List.mem_cons_of_mem r hx))
      show (r ++ '\n' :: joinSep (s :: t)).getLast? = rLast.getLast?
      rw [List.getLast?_append_of_ne_nil r (by simp)]
      rw [show ('\n' :: joinSep (s :: t)) = ['\n'] ++ joinSep (s :: t) from rfl]
      rw [List.getLast?_append_of_ne_nil ['\n'] hjne]
      exact hrec

theorem splitLines_no_newline : ∀ {r : List Char}, '\n' ∉ r → splitLines r = [r]
  | [], _ => rfl
  | c :: cs, h => by
      simp only [List.mem_cons, not_or] at h
      simp [splitLines, Ne.symm h.1, splitLines_no_newline h.2]

theorem splitLines_append_newline {a : List Char} (h : '\n' ∉ a) (s : List Char) :
    splitLines (a ++ '\n' :: s) = a :: splitLines s := by
  induction a with
  | nil => simp [splitLines]
  | cons x xs ih =>
      simp only [List.mem_cons, not_or] at h
      simp [splitLines, Ne.symm h.1, ih h.2]

theorem splitLines_joinSep : ∀ rows : List (List Char), rows ≠ [] →
    (∀ r ∈ rows, '\n' ∉ r) → splitLines (joinSep rows) = rows
  | [], h, _ => absurd rfl h
  | [r], _, hr => splitLines_no_newline (hr r (by simp))
  | r :: s :: t, _, hr => by
      show splitLines (r ++ '\n' :: joinSep (s :: t)) = r :: s :: t
      rw [splitLines_append_newline (hr r (by simp))]
      rw [splitLines_joinSep (s :: t) (by simp)
        (fun x hx => hr x (List.mem_cons_of_mem r hx))]

theorem stripCR_eq_self {s : List Char}
    (hl : ∀ c, s.getLast? = some c → isWs c = false) : stripCR s = s := by
  unfold stripCR
  cases hlast : s.getLast? with
  | none => rfl
  | some c =>
      have hc := hl c hlast
      have hne : ¬(some c = some '\r') := by
        intro heq
        rw [Option.some.injEq] at heq
        subst heq
        simp [isWs] at hc
      rw [if_neg hne]

/-- A serialized line: non-empty, newline-free, whitespace-free at both
ends. -/
def goodRow (r : List Char) : Prop :=
  r ≠ [] ∧ '\n' ∉ r
  ∧ (∀ c, r.head? = some c → isWs c = false)
  ∧ (∀ c, r.getLast? = some c → isWs c = false)

theorem linesOf_trim_rows (rows : List (List Char)) (hr : ∀ r ∈ rows, goodRow r) :
    linesOf (trimList ((rows.map (fun r => r ++ ['\n'])).flatten)) = rows := by
  cases rows with
  | nil => rfl
  | cons r0 rest =>
      have hne : (r0 :: rest : List (List Char)) ≠ [] := by simp
      have hnil : ∀ r ∈ r0 :: rest, r ≠ [] := fun r h => (hr r h).1
      have hjne : joinSep (r0 :: rest) ≠ [] := joinSep_ne_nil _ hne hnil
      obtain ⟨rLast, hrLast⟩ : ∃ r, (r0 :: rest).getLast? = some r := by
        cases hgl : (r0 :: rest).getLast? with
        | none => exact absurd (List.getLast?_eq_none_iff.mp hgl) hne
        | some r => exact ⟨r, rfl⟩
      have hrLmem : rLast ∈ r0 :: rest := by
        obtain ⟨h9, heq⟩ := List.mem_getLast?_eq_getLast (Option.mem_def.mpr hrLast)
        rw [heq]
        exact List.getLast_mem h9
      have hh : ∀ c, (joinSep (r0 :: rest)).head? = some c → isWs c = false := by
        intro c hc
        rw [head?_joinSep r0 rest (hnil r0 (by simp))] at hc
        exact (hr r0 (by simp)).2.2.1 c hc
      have hl : ∀ c, (joinSep (r0 :: rest)).getLast? = some c → isWs c = false := by
        intro c hc
        rw [getLast?_joinSep (r0 :: rest) rLast hrLast hnil] at hc
        exact (hr rLast hrLmem).2.2.2 c hc
      rw [flatten_newline_rows _ hne, trimList_append_newline hjne hh hl]
      unfold linesOf
      rw [if_neg hjne]
      rw [splitLines_joinSep _ hne (fun r h => (hr r h).2.1)]
      have hLne : ¬((r0 :: rest).getLast? = some []) := by
        rw [hrLast]
        intro heq
        rw [Option.some.injEq] at heq
        exact (hr rLast hrLmem).1 heq
      rw [if_neg hLne]
      exact map_id_of _ _ (fun r h => stripCR_eq_self (hr r h).2.2.2)

/-! ### Well-behaved payload renderings and line processing -/

/-- A benign `Display` rendering for a payload value: non-empty, free of
`'#'` and `'\n'`, and whitespace-free at both ends (so that `trim` leaves
it unchanged and the line structure of the format survives). -/
def goodVal (s : List Char) : Prop :=
  s ≠ [] ∧ '#' ∉ s ∧ '\n' ∉ s
  ∧ (∀ c, s.head? = some c → isWs c = false)
  ∧ (∀ c, s.getLast? = some c → isWs c = false)

theorem head?_mem {α : Type} {l : List α} {a : α} (h : l.head? = some a) : a ∈ l := by
  cases l with
  | nil => simp at h
  | cons x xs =>
      rw [List.head?_cons, Option.some.injEq] at h
      rw [← h]
      exact List.mem_cons_self x xs

theorem getLast?_mem {α : Type} {l : List α} {a : α} (h : l.getLast? = some a) : a ∈ l := by
  obtain ⟨h9, heq⟩ := List.mem_getLast?_eq_getLast (Option.mem_def.mpr h)
  rw [heq]
  exact List.getLast_mem h9

theorem trimList_natToStr (n : Nat) : trimList (natToStr n) = natToStr n := by
  apply trimList_eq_self
  · intro c hc
    exact (natToStr_props (head?_mem hc)).1
  · intro c hc
    exact (natToStr_props (getLast?_mem hc)).1

theorem trimList_goodVal {s : List Char} (h : goodVal s) : trimList s = s :=
  trimList_eq_self h.2.2.2.1 h.2.2.2.2

theorem goodRow_vertexLine {V : Type} (dV : V → List Char) (hdV : ∀ v, goodVal (dV v))
    (p : Nat × V) : goodRow (vertexLine dV p) := by
  obtain ⟨hne, hhash, hnl, hh, hl⟩ := hdV p.2
  refine ⟨by simp [vertexLine], ?_, ?_, ?_⟩
  · intro hmem
    rw [vertexLine, List.mem_append, List.mem_cons] at hmem
    rcases hmem with h | h | h
    · exact natToStr_no_newline p.1 h
    · exact absurd h (by decide)
    · exact hnl h
  · intro c hc
    rw [vertexLine, head?_append_left _ _ (natToStr_ne_nil p.1)] at hc
    exact (natToStr_props (head?_mem hc)).1
  · intro c hc
    rw [vertexLine, List.getLast?_append_of_ne_nil _ (by simp)] at hc
    rw [show (' ' :: dV p.2) = [' '] ++ dV p.2 from rfl,
      List.getLast?_append_of_ne_nil _ hne] at hc
    exact hl c hc

theorem goodRow_edgeLine {E : Type} (dE : E → List Char) (hdE : ∀ e, goodVal (dE e))
    (f : Nat) (q : Nat × E) : goodRow (edgeLine dE f q) := by
  obtain ⟨hne, hhash, hnl, hh, hl⟩ := hdE q.2
  refine ⟨by simp [edgeLine], ?_, ?_, ?_⟩
  · intro hmem
    rw [edgeLine, List.mem_append, List.mem_cons, List.mem_append, List.mem_cons] at hmem
    rcases hmem with h | h | (h | h | h)
    · exact natToStr_no_newline f h
    · exact absurd h (by decide)
    · exact natToStr_no_newline q.1 h
    · exact absurd h (by decide)
    · exact hnl h
  · intro c hc
    rw [edgeLine, head?_append_left _ _ (natToStr_ne_nil f)] at hc
    exact (natToStr_props (head?_mem hc)).1
  · intro c hc
    rw [edgeLine, List.getLast?_append_of_ne_nil _ (by simp)] at hc
    rw [show (' ' :: (natToStr q.1 ++ ' ' :: dE q.2))
          = [' '] ++ (natToStr q.1 ++ ' ' :: dE q.2) from rfl,
      List.getLast?_append_of_ne_nil _ (by simp),
      List.getLast?_append_of_ne_nil _ (by simp),
      show (' ' :: dE q.2) = [' '] ++ dE q.2 from rfl,
      List.getLast?_append_of_ne_nil _ hne] at hc
    exact hl c hc

theorem stepVertexLine_vertexLine {V E : Type} (dV : V → List Char)
    (pV : List Char → Option V) (hdV : ∀ v, goodVal (dV v))
    (hpV : ∀ v, pV (dV v) = some v) (p : Nat × V) (hb : p.1 < 2 ^ 32) (g : Graph V E) :
    stepVertexLine pV (vertexLine dV p) g = .ok (insert_node g p.1 p.2).2 := by
  have hgood := hdV p.2
  simp only [stepVertexLine, vertexLine, splitOnceChar_append (natToStr_no_space p.1),
    trimList_natToStr, parseU32_natToStr p.1 hb,
    trimList_goodVal hgood, hpV p.2]

theorem stepEdgeLine_edgeLine {V E : Type} (dE : E → List Char)
    (pE : List Char → Option E) (hdE : ∀ e, goodVal (dE e))
    (hpE : ∀ e, pE (dE e) = some e) (f : Nat) (q : Nat × E)
    (hbf : f < 2 ^ 32) (hbt : q.1 < 2 ^ 32) (g : Graph V E) :
    stepEdgeLine pE (edgeLine dE f q) g = .ok (insert_edge g ⟨f, q.1⟩ q.2).2 := by
  have hgood := hdE q.2
  simp only [stepEdgeLine, edgeLine, splitOnceChar_append (natToStr_no_space f),
    splitOnceChar_append (natToStr_no_space q.1), trimList_natToStr,
    parseU32_natToStr f hbf, parseU32_natToStr q.1 hbt,
    trimList_goodVal hgood, hpE q.2]

theorem insertVertices_vertexLines {V E : Type} (dV : V → List Char)
    (pV : List Char → Option V) (hdV : ∀ v, goodVal (dV v))
    (hpV : ∀ v, pV (dV v) = some v) (entries : List (Nat × V))
    (hb : ∀ p ∈ entries, p.1 < 2 ^ 32) (g : Graph V E) :
    insertVertices pV (entries.map (vertexLine dV)) g = .ok (applyInserts entries g) := by
  induction entries generalizing g with
  | nil => rfl
  | cons p rest ih =>
      simp only [List.map_cons, insertVertices, applyInserts,
        stepVertexLine_vertexLine dV pV hdV hpV p (hb p (by simp)) g]
      exact ih (fun q hq => hb q (by simp [hq])) _

/-- A sequence of `insert_edge` calls over (from, (to, value)) triples. -/
def applyEdges {V E : Type} : List (Nat × (Nat × E)) → Graph V E → Graph V E
  | [], g => g
  | tr :: rest, g => applyEdges rest (insert_edge g ⟨tr.1, tr.2.1⟩ tr.2.2).2

theorem insertEdges_edgeLines {V E : Type} (dE : E → List Char)
    (pE : List Char → Option E) (hdE : ∀ e, goodVal (dE e))
    (hpE : ∀ e, pE (dE e) = some e) (triples : List (Nat × (Nat × E)))
    (hb : ∀ tr ∈ triples, tr.1 < 2 ^ 32 ∧ tr.2.1 < 2 ^ 32) (g : Graph V E) :
    insertEdges pE (triples.map (fun tr => edgeLine dE tr.1 tr.2)) g =
      .ok (applyEdges triples g) := by
  induction triples generalizing g with
  | nil => rfl
  | cons tr rest ih =>
      simp only [List.map_cons, insertEdges, applyEdges,
        stepEdgeLine_edgeLine dE pE hdE hpE tr.1 tr.2 (hb tr (by simp)).1
          (hb tr (by simp)).2 g]
      exact ih (fun q hq => hb q (by simp [hq])) _

/-! ### Semantics of the rebuilt graph -/

theorem optOr_assoc {α : Type} (a b c : Option α) :
    optOr (optOr a b) c = optOr a (optOr b c) := by
  cases a <;> rfl

theorem alLookup_eq_none_iff {α : Type} (k : Nat) (l : List (Nat × α)) :
    alLookup k l = none ↔ k ∉ l.map Prod.fst := by
  rw [← alLookup_isSome_iff]
  cases alLookup k l <;> simp

/-- The edge value stored for `(f, t)`: the adjacency row of `f`, then the
entry of `t` in it. -/
def edgeLookup {V E : Type} (g : Graph V E) (f t : Nat) : Option E :=
  (alLookup f g.adj_list).bind (fun row => alLookup t row)

/-- The value of the latest `(f, t)` triple in an edge-insertion call
sequence. -/
def tripleLookup {E : Type} (f t : Nat) : List (Nat × (Nat × E)) → Option E
  | [] => none
  | tr :: rest =>
      optOr (tripleLookup f t rest)
        (if tr.1 = f ∧ tr.2.1 = t then some tr.2.2 else none)

theorem insert_edge_vertices {V E : Type} (g : Graph V E) (e : OrientedEdge) (val : E) :
    ((insert_edge g e val).2).vertices = g.vertices := by
  cases h : alLookup e.fst g.adj_list <;> simp [insert_edge, h]

theorem insert_edge_adj_keys {V E : Type} (g : Graph V E) (e : OrientedEdge) (val : E) :
    ((insert_edge g e val).2).adj_list.map Prod.fst = g.adj_list.map Prod.fst := by
  cases h : alLookup e.fst g.adj_list <;> simp [insert_edge, h, keys_alUpdate]

theorem edgeLookup_insert_edge {V E : Type} (g : Graph V E) (e : OrientedEdge) (val : E)
    (row : List (Nat × E)) (hr : alLookup e.fst g.adj_list = some row) (f t : Nat) :
    edgeLookup (insert_edge g e val).2 f t =
      optOr (if e.fst = f ∧ e.snd = t then some val else none) (edgeLookup g f t) := by
  simp only [insert_edge, hr, edgeLookup, alLookup_alUpdate]
  by_cases hf : f = e.fst
  · subst hf
    rw [if_pos rfl, hr]
    simp only [Option.map_some', Option.some_bind]
    rw [alLookup_alInsert]
    by_cases ht : e.snd = t
    · simp [ht]
    · simp [ht]
  · rw [if_neg hf, if_neg (fun hc => hf hc.1.symm)]
    rfl

theorem applyEdges_vertices {V E : Type} (ts : List (Nat × (Nat × E))) (g : Graph V E) :
    (applyEdges ts g).vertices = g.vertices := by
  induction ts generalizing g with
  | nil => rfl
  | cons tr rest ih => rw [applyEdges, ih, insert_edge_vertices]

theorem edgeLookup_applyEdges {V E : Type} (ts : List (Nat × (Nat × E))) (g : Graph V E)
    (hkn : ∀ tr ∈ ts, tr.1 ∈ g.adj_list.map Prod.fst) (f t : Nat) :
    edgeLookup (applyEdges ts g) f t = optOr (tripleLookup f t ts) (edgeLookup g f t) := by
  induction ts generalizing g with
  | nil => rfl
  | cons tr rest ih =>
      have hmem := hkn tr (by simp)
      obtain ⟨row, hr⟩ : ∃ row, alLookup tr.1 g.adj_list = some row := by
        have hsome := (alLookup_isSome_iff tr.1 g.adj_list).mpr hmem
        cases h : alLookup tr.1 g.adj_list with
        | none => rw [h] at hsome; simp at hsome
        | some r => exact ⟨r, rfl⟩
      rw [applyEdges, ih _ (fun tr' h' => by
        rw [insert_edge_adj_keys]
        exact hkn tr' (List.mem_cons_of_mem tr h'))]
      rw [edgeLookup_insert_edge g ⟨tr.1, tr.2.1⟩ tr.2.2 row hr f t]
      rw [tripleLookup, optOr_assoc]

theorem tripleLookup_append {E : Type} (f t : Nat) (a b : List (Nat × (Nat × E))) :
    tripleLookup f t (a ++ b) = optOr (tripleLookup f t b) (tripleLookup f t a) := by
  induction a with
  | nil => simp [tripleLookup]
  | cons tr rest ih =>
      simp only [List.cons_append, tripleLookup, List.append_eq, ih, optOr_assoc]

/-- The (from, (to, value)) triples of one adjacency row. -/
def rowTriples {E : Type} (p : Nat × List (Nat × E)) : List (Nat × (Nat × E)) :=
  p.2.map (fun q => (p.1, q))

theorem tripleLookup_rowMap {E : Type} (f t k : Nat) (row : List (Nat × E))
    (hnd : (row.map Prod.fst).Nodup) :
    tripleLookup f t (row.map (fun q => (k, q))) =
      if k = f then alLookup t row else none := by
  induction row with
  | nil => simp [tripleLookup, alLookup]
  | cons q qs ih =>
      rw [List.map_cons, List.nodup_cons] at hnd
      simp only [List.map_cons, tripleLookup]
      rw [ih hnd.2]
      by_cases hk : k = f
      · by_cases hqt : q.1 = t
        · have hnone : alLookup t qs = none :=
            (alLookup_eq_none_iff t qs).mpr (hqt ▸ hnd.1)
          simp [alLookup, hk, hqt, hnone]
        · simp [alLookup, hk, hqt]
      · simp [hk]

theorem tripleLookup_flatten {E : Type} (f t : Nat) (l : List (Nat × List (Nat × E)))
    (hndA : (l.map Prod.fst).Nodup) (hrows : ∀ p ∈ l, (p.2.map Prod.fst).Nodup) :
    tripleLookup f t ((l.map rowTriples).flatten) =
      (alLookup f l).bind (fun row => alLookup t row) := by
  induction l with
  | nil => rfl
  | cons p rest ih =>
      rw [List.map_cons, List.nodup_cons] at hndA
      simp only [List.map_cons, List.flatten_cons]
      rw [tripleLookup_append,
        ih hndA.2 (fun q hq => hrows q (List.mem_cons_of_mem p hq))]
      rw [show rowTriples p = p.2.map (fun q => (p.1, q)) from rfl,
        tripleLookup_rowMap f t p.1 p.2 (hrows p (by simp))]
      by_cases hp : p.1 = f
      · have hnone : alLookup f rest = none :=
          (alLookup_eq_none_iff f rest).mpr (hp ▸ hndA.1)
        simp [alLookup, hp, hnone]
      · simp [alLookup, hp]

theorem alLookup_entryOrEmpty {E : Type} (k f : Nat) (l : List (Nat × List (Nat × E))) :
    alLookup f (entryOrEmpty k l) =
      optOr (alLookup f l) (if f = k then some [] else none) := by
  unfold entryOrEmpty
  cases hk : alLookup k l with
  | some row =>
      by_cases hf : f = k
      · subst hf
        rw [hk, if_pos rfl]
        rfl
      · rw [if_neg hf, optOr_none_right]
  | none =>
      by_cases hf : f = k
      · subst hf
        rw [alLookup_append_right f l _ hk, hk, if_pos rfl]
        simp [alLookup]
      · rw [if_neg hf]
        cases hfl : alLookup f l with
        | some r => rw [alLookup_append_left f r l _ hfl]; rfl
        | none =>
            rw [alLookup_append_right f l _ hfl]
            simp [alLookup, Ne.symm hf, optOr]

theorem applyInserts_adj {V E : Type} (entries : List (Nat × V)) (g : Graph V E) (f : Nat) :
    alLookup f (applyInserts entries g).adj_list =
      optOr (alLookup f g.adj_list)
        (if f ∈ entries.map Prod.fst then some [] else none) := by
  induction entries generalizing g with
  | nil => simp [applyInserts]
  | cons p rest ih =>
      rw [applyInserts, ih]
      simp only [insert_node]
      rw [alLookup_entryOrEmpty, optOr_assoc]
      congr 1
      by_cases h1 : f = p.1 <;> by_cases h2 : f ∈ rest.map Prod.fst <;>
        simp [h1, h2, optOr]

theorem lastVal_eq_alLookup {V : Type} (entries : List (Nat × V))
    (hnd : (entries.map Prod.fst).Nodup) (id : Nat) :
    lastVal id entries = alLookup id entries := by
  induction entries with
  | nil => rfl
  | cons p rest ih =>
      rw [List.map_cons, List.nodup_cons] at hnd
      rw [lastVal, ih hnd.2]
      by_cases hp : p.1 = id
      · have hnone : alLookup id rest = none :=
          (alLookup_eq_none_iff id rest).mpr (hp ▸ hnd.1)
        simp [alLookup, hp, hnone]
      · simp [alLookup, hp]

/-! ### Structural well-formedness of reachable graphs -/

theorem nodup_append_singleton {α : Type} {l : List α} {a : α}
    (h1 : l.Nodup) (h2 : a ∉ l) : (l ++ [a]).Nodup := by
  rw [List.nodup_append]
  exact ⟨h1, List.nodup_singleton a, fun x hx hx2 => by
    rw [List.mem_singleton] at hx2
    subst hx2
    exact h2 hx⟩

theorem keys_alInsert {α : Type} (k : Nat) (v : α) (l : List (Nat × α)) :
    (alInsert k v l).1.map Prod.fst =
      if k ∈ l.map Prod.fst then l.map Prod.fst else l.map Prod.fst ++ [k] := by
  induction l with
  | nil => simp [alInsert]
  | cons p rest ih =>
      by_cases h : p.1 = k
      · simp [alInsert, h]
      · by_cases h2 : k ∈ rest.map Prod.fst <;>
          simp [alInsert, h, Ne.symm h, h2, ih]

theorem keys_entryOrEmpty {E : Type} (k : Nat) (l : List (Nat × List (Nat × E))) :
    (entryOrEmpty k l).map Prod.fst =
      if k ∈ l.map Prod.fst then l.map Prod.fst else l.map Prod.fst ++ [k] := by
  unfold entryOrEmpty
  cases hk : alLookup k l with
  | some row => rw [if_pos ((alLookup_isSome_iff k l).mp (by simp [hk]))]
  | none =>
      rw [if_neg ((alLookup_eq_none_iff k l).mp hk)]
      simp

theorem mem_entryOrEmpty {E : Type} {p : Nat × List (Nat × E)} (k : Nat)
    (l : List (Nat × List (Nat × E))) (h : p ∈ entryOrEmpty k l) :
    p ∈ l ∨ p = (k, []) := by
  unfold entryOrEmpty at h
  cases hk : alLookup k l with
  | some row => rw [hk] at h; exact Or.inl h
  | none =>
      rw [hk, List.mem_append, List.mem_singleton] at h
      exact h

theorem mem_alUpdate {α : Type} {p' : Nat × α} (k : Nat) (f : α → α) (l : List (Nat × α))
    (h : p' ∈ alUpdate k f l) : p' ∈ l ∨ ∃ p, p ∈ l ∧ p' = (k, f p.2) := by
  rw [alUpdate, List.mem_map] at h
  obtain ⟨p, hp, heq⟩ := h
  by_cases hk : p.1 = k
  · rw [if_pos hk] at heq
    exact Or.inr ⟨p, hp, heq.symm⟩
  · rw [if_neg hk] at heq
    exact Or.inl (heq ▸ hp)

theorem mem_alInsert {α : Type} {q : Nat × α} (k : Nat) (v : α) (l : List (Nat × α))
    (h : q ∈ (alInsert k v l).1) : q = (k, v) ∨ q ∈ l := by
  induction l with
  | nil =>
      rw [show (alInsert k v ([] : List (Nat × α))).1 = [(k, v)] from rfl,
        List.mem_singleton] at h
      exact Or.inl h
  | cons p rest ih =>
      by_cases hp : p.1 = k
      · rw [show (alInsert k v (p :: rest)).1 = (k, v) :: rest by simp [alInsert, hp],
          List.mem_cons] at h
        rcases h with h | h
        · exact Or.inl h
        · exact Or.inr (List.mem_cons_of_mem p h)
      · rw [show (alInsert k v (p :: rest)).1 = p :: (alInsert k v rest).1 by
            simp [alInsert, hp], List.mem_cons] at h
        rcases h with h | h
        · exact Or.inr (h ▸ List.mem_cons_self p rest)
        · rcases ih h with h2 | h2
          · exact Or.inl h2
          · exact Or.inr (List.mem_cons_of_mem p h2)

theorem alLookup_mem {α : Type} {k : Nat} {v : α} {l : List (Nat × α)}
    (h : alLookup k l = some v) : (k, v) ∈ l := by
  induction l with
  | nil => simp [alLookup] at h
  | cons p rest ih =>
      rw [alLookup] at h
      by_cases hp : p.1 = k
      · rw [if_pos hp, Option.some.injEq] at h
        rcases p with ⟨p1, p2⟩
        simp only at hp h
        subst hp
        subst h
        exact List.mem_cons_self _ rest
      · rw [if_neg hp] at h
        exact List.mem_cons_of_mem p (ih h)

/-- The invariants every graph built by `HashMap` operations satisfies:
duplicate-free keys at every level, the two stores in key lockstep, and
every stored id in `u32` range. -/
structure WF {V E : Type} (g : Graph V E) : Prop where
  nodupV : (g.vertices.map Prod.fst).Nodup
  nodupA : (g.adj_list.map Prod.fst).Nodup
  nodupRow : ∀ p ∈ g.adj_list, (p.2.map Prod.fst).Nodup
  lock : ∀ id, id ∈ g.vertices.map Prod.fst ↔ id ∈ g.adj_list.map Prod.fst
  vBound : ∀ id ∈ g.vertices.map Prod.fst, id < 2 ^ 32
  eBound : ∀ p ∈ g.adj_list, ∀ q ∈ p.2, q.1 < 2 ^ 32

theorem reachable_wf {V E : Type} (g : Graph V E) (h : Reachable g) : WF g := by
  induction h with
  | empty =>
      exact ⟨by simp [Graph.new], by simp [Graph.new], by simp [Graph.new],
        by simp [Graph.new], by simp [Graph.new], by simp [Graph.new]⟩
  | insNode hr hb ih =>
      rename_i g' id v
      obtain ⟨nV, nA, nR, lk, vB, eB⟩ := ih
      refine ⟨?_, ?_, ?_, ?_, ?_, ?_⟩
      · show ((alInsert id v g'.vertices).1.map Prod.fst).Nodup
        rw [keys_alInsert]
        split
        · exact nV
        case isFalse hmem => exact nodup_append_singleton nV hmem
      · show ((entryOrEmpty id g'.adj_list).map Prod.fst).Nodup
        rw [keys_entryOrEmpty]
        split
        · exact nA
        case isFalse hmem => exact nodup_append_singleton nA hmem
      · intro p hp
        rcases mem_entryOrEmpty id g'.adj_list hp with h | h
        · exact nR p h
        · subst h; simp
      · intro j
        show j ∈ (alInsert id v g'.vertices).1.map Prod.fst
          ↔ j ∈ (entryOrEmpty id g'.adj_list).map Prod.fst
        rw [mem_keys_alInsert, mem_keys_entryOrEmpty, lk j]
      · intro j hj
        rw [show ((insert_node g' id v).2).vertices = (alInsert id v g'.vertices).1 from rfl,
          mem_keys_alInsert] at hj
        rcases hj with h | h
        · exact h ▸ hb
        · exact vB j h
      · intro p hp q hq
        rcases mem_entryOrEmpty id g'.adj_list hp with h | h
        · exact eB p h q hq
        · subst h; simp at hq
  | rmNode hr hb ih =>
      rename_i g' id
      obtain ⟨nV, nA, nR, lk, vB, eB⟩ := ih
      refine ⟨?_, ?_, ?_, ?_, ?_, ?_⟩
      · exact nV.sublist ((eraseKey_sublist id g'.vertices).map Prod.fst)
      · have h1 := (eraseKey_sublist id
          (g'.adj_list.map (fun p => (p.1, eraseKey id p.2)))).map Prod.fst
        rw [keys_mapVal] at h1
        exact nA.sublist h1
      · intro p hp
        have hp2 := (eraseKey_sublist id _).subset hp
        rw [List.mem_map] at hp2
        obtain ⟨p0, hp0, heq⟩ := hp2
        have : (p.2.map Prod.fst).Sublist (p0.2.map Prod.fst) := by
          rw [← heq]
          exact (eraseKey_sublist id p0.2).map Prod.fst
        exact (nR p0 hp0).sublist this
      · intro j
        show j ∈ (eraseKey id g'.vertices).map Prod.fst
          ↔ j ∈ (eraseKey id (g'.adj_list.map (fun p => (p.1, eraseKey id p.2)))).map Prod.fst
        rw [mem_keys_eraseKey, mem_keys_eraseKey, keys_mapVal, lk j]
      · intro j hj
        rw [show ((remove_node g' id).2).vertices = eraseKey id g'.vertices from rfl,
          mem_keys_eraseKey] at hj
        exact vB j hj.2
      · intro p hp q hq
        have hp2 := (eraseKey_sublist id _).subset hp
        rw [List.mem_map] at hp2
        obtain ⟨p0, hp0, heq⟩ := hp2
        have hq2 : q ∈ p0.2 := by
          have : q ∈ eraseKey id p0.2 := by rw [← heq] at hq; exact hq
          exact (eraseKey_sublist id p0.2).subset this
        exact eB p0 hp0 q hq2
  | insEdge hr hb1 hb2 ih =>
      rename_i g' e val
      obtain ⟨nV, nA, nR, lk, vB, eB⟩ := ih
      cases hrow : alLookup e.fst g'.adj_list with
      | none =>
          have heq : (insert_edge g' e val).2 = g' := by simp [insert_edge, hrow]
          rw [heq]
          exact ⟨nV, nA, nR, lk, vB, eB⟩
      | some row =>
          have hadj : (insert_edge g' e val).2.adj_list =
              alUpdate e.fst (fun _ => (alInsert e.snd val row).1) g'.adj_list := by
            simp [insert_edge, hrow]
          have hvert : (insert_edge g' e val).2.vertices = g'.vertices :=
            insert_edge_vertices g' e val
          have hRowNodup : (row.map Prod.fst).Nodup := nR (e.fst, row) (alLookup_mem hrow)
          refine ⟨?_, ?_, ?_, ?_, ?_, ?_⟩
          · rw [hvert]; exact nV
          · rw [hadj, keys_alUpdate]; exact nA
          · intro p hp
            rw [hadj] at hp
            rcases mem_alUpdate _ _ _ hp with h | ⟨p0, hp0, heq⟩
            · exact nR p h
            · subst heq
              show ((alInsert e.snd val row).1.map Prod.fst).Nodup
              rw [keys_alInsert]
              split
              · exact hRowNodup
              case isFalse hmem => exact nodup_append_singleton hRowNodup hmem
          · intro j
            rw [hvert, hadj, keys_alUpdate]
            exact lk j
          · intro j hj
            rw [hvert] at hj
            exact vB j hj
          · intro p hp q hq
            rw [hadj] at hp
            rcases mem_alUpdate _ _ _ hp with h | ⟨p0, hp0, heq⟩
            · exact eB p h q hq
            · subst heq
              rcases mem_alInsert _ _ _ hq with h2 | h2
              · rw [h2]; exact hb2
              · exact eB (e.fst, row) (alLookup_mem hrow) q h2
  | rmEdge hr hb1 hb2 ih =>
      rename_i g' e
      obtain ⟨nV, nA, nR, lk, vB, eB⟩ := ih
      cases hrow : alLookup e.fst g'.adj_list with
      | none =>
          have heq : (remove_edge g' e).2 = g' := by simp [remove_edge, hrow]
          rw [heq]
          exact ⟨nV, nA, nR, lk, vB, eB⟩
      | some row =>
          have hadj : (remove_edge g' e).2.adj_list =
              alUpdate e.fst (fun _ => eraseKey e.snd row) g'.adj_list := by
            simp [remove_edge, hrow]
          have hvert : (remove_edge g' e).2.vertices = g'.vertices := by
            simp [remove_edge, hrow]
          have hRowNodup : (row.map Prod.fst).Nodup := nR (e.fst, row) (alLookup_mem hrow)
          refine ⟨?_, ?_, ?_, ?_, ?_, ?_⟩
          · rw [hvert]; exact nV
          · rw [hadj, keys_alUpdate]; exact nA
          · intro p hp
            rw [hadj] at hp
            rcases mem_alUpdate _ _ _ hp with h | ⟨p0, hp0, heq⟩
            · exact nR p h
            · subst heq
              exact hRowNodup.sublist ((eraseKey_sublist e.snd row).map Prod.fst)
          · intro j
            rw [hvert, hadj, keys_alUpdate]
            exact lk j
          · intro j hj
            rw [hvert] at hj
            exact vB j hj
          · intro p hp q hq
            rw [hadj] at hp
            rcases mem_alUpdate _ _ _ hp with h | ⟨p0, hp0, heq⟩
            · exact eB p h q hq
            · subst heq
              exact eB (e.fst, row) (alLookup_mem hrow) q
                ((eraseKey_sublist e.snd row).subset hq)

/-! ### The serialization round-trip (C4) -/

theorem vertexLine_no_hash {V : Type} (dV : V → List Char) (hdV : ∀ v, goodVal (dV v))
    (p : Nat × V) : '#' ∉ vertexLine dV p := by
  intro hmem
  rw [vertexLine, List.mem_append, List.mem_cons] at hmem
  rcases hmem with h | h | h
  · exact natToStr_no_hash p.1 h
  · exact absurd h (by decide)
  · exact (hdV p.2).2.1 h

theorem no_hash_flatten (rows : List (List Char)) (h : ∀ r ∈ rows, '#' ∉ r) :
    '#' ∉ (rows.map (fun r => r ++ ['\n'])).flatten := by
  intro hmem
  rw [List.mem_flatten] at hmem
  obtain ⟨x, hx, hmem2⟩ := hmem
  rw [List.mem_map] at hx
  obtain ⟨r, hr, rfl⟩ := hx
  rw [List.mem_append, List.mem_singleton] at hmem2
  rcases hmem2 with h2 | h2
  · exact h r hr h2
  · exact absurd h2 (by decide)

theorem mem_flatten_rowTriples {E : Type} {tr : Nat × (Nat × E)}
    (l : List (Nat × List (Nat × E))) (h : tr ∈ (l.map rowTriples).flatten) :
    ∃ p, p ∈ l ∧ tr.1 = p.1 ∧ tr.2 ∈ p.2 := by
  rw [List.mem_flatten] at h
  obtain ⟨x, hx, htr⟩ := h
  rw [List.mem_map] at hx
  obtain ⟨p, hp, rfl⟩ := hx
  rw [rowTriples, List.mem_map] at htr
  obtain ⟨q, hq, rfl⟩ := htr
  exact ⟨p, hp, rfl, hq⟩

theorem vertex_section_eq {V : Type} (dV : V → List Char) (l : List (Nat × V)) :
    l.map (fun p => vertexLine dV p ++ ['\n'])
      = (l.map (vertexLine dV)).map (fun r => r ++ ['\n']) := by
  rw [List.map_map]
  rfl

theorem edge_section_eq {E : Type} (dE : E → List Char)
    (l : List (Nat × List (Nat × E))) :
    (l.map (fun p => (p.2.map (fun q => edgeLine dE p.1 q ++ ['\n'])).flatten)).flatten
      = ((((l.map rowTriples).flatten).map
          (fun tr => edgeLine dE tr.1 tr.2)).map (fun r => r ++ ['\n'])).flatten := by
  induction l with
  | nil => rfl
  | cons p rest ih =>
      simp only [List.map_cons, List.flatten_cons, List.map_append, List.flatten_append, ih]
      congr 1
      rw [rowTriples, List.map_map, List.map_map]
      rfl

/-- **C4.** Round-trip law: on every reachable graph, over payload types
whose `Display`/`FromStr` conversions invert each other and render benignly
(non-empty, no `'#'`/`'\n'`, trimmed), serializing and then deserializing
succeeds and reproduces both the vertex id-to-value mapping and the
(from, to)-to-edge-value mapping, independent of store iteration order. -/
theorem serialize_roundtrip {V E : Type} (dV : V → List Char) (pV : List Char → Option V)
    (dE : E → List Char) (pE : List Char → Option E) (g : Graph V E)
    (hg : Reachable g)
    (hdV : ∀ v, goodVal (dV v)) (hpV : ∀ v, pV (dV v) = some v)
    (hdE : ∀ e, goodVal (dE e)) (hpE : ∀ e, pE (dE e) = some e) :
    ∃ g' : Graph V E,
      deserializeGraph pV pE (serializeGraph dV dE g) = .ok g'
      ∧ (∀ id, alLookup id g'.vertices = alLookup id g.vertices)
      ∧ (∀ f t, edgeLookup g' f t = edgeLookup g f t) := by
  obtain ⟨nV, nA, nR, lk, vB, eB⟩ := reachable_wf g hg
  have hbV : ∀ p ∈ g.vertices, p.1 < 2 ^ 32 := fun p hp =>
    vB p.1 (List.mem_map_of_mem Prod.fst hp)
  have hbT : ∀ tr ∈ (g.adj_list.map rowTriples).flatten,
      tr.1 < 2 ^ 32 ∧ tr.2.1 < 2 ^ 32 := by
    intro tr htr
    obtain ⟨p, hp, h1, h2⟩ := mem_flatten_rowTriples g.adj_list htr
    constructor
    · exact h1 ▸ vB p.1 ((lk p.1).mpr (List.mem_map_of_mem Prod.fst hp))
    · exact eB p hp tr.2 h2
  have hser : serializeGraph dV dE g =
      ((g.vertices.map (vertexLine dV)).map (fun r => r ++ ['\n'])).flatten
      ++ '#' :: '\n' ::
      ((((g.adj_list.map rowTriples).flatten).map
          (fun tr => edgeLine dE tr.1 tr.2)).map (fun r => r ++ ['\n'])).flatten := by
    unfold serializeGraph
    rw [vertex_section_eq, edge_section_eq]
  have hVgood : ∀ r ∈ g.vertices.map (vertexLine dV), goodRow r := by
    intro r hr
    rw [List.mem_map] at hr
    obtain ⟨p, hp, rfl⟩ := hr
    exact goodRow_vertexLine dV hdV p
  have hEgood : ∀ r ∈ ((g.adj_list.map rowTriples).flatten).map
      (fun tr => edgeLine dE tr.1 tr.2), goodRow r := by
    intro r hr
    rw [List.mem_map] at hr
    obtain ⟨tr, htr, rfl⟩ := hr
    exact goodRow_edgeLine dE hdE tr.1 tr.2
  have hnohash : '#' ∉ ((g.vertices.map (vertexLine dV)).map (fun r => r ++ ['\n'])).flatten := by
    apply no_hash_flatten
    intro r hr
    rw [List.mem_map] at hr
    obtain ⟨p, hp, rfl⟩ := hr
    exact vertexLine_no_hash dV hdV p
  refine ⟨applyEdges ((g.adj_list.map rowTriples).flatten)
      (applyInserts g.vertices Graph.new), ?_, ?_, ?_⟩
  · rw [hser]
    simp only [deserializeGraph, splitOnceChar_append hnohash]
    rw [linesOf_trim_rows _ hVgood,
      insertVertices_vertexLines dV pV hdV hpV g.vertices hbV Graph.new]
    rw [trimList_cons_ws (show isWs '\n' = true from rfl), linesOf_trim_rows _ hEgood]
    exact insertEdges_edgeLines dE pE hdE hpE _ hbT _
  · intro id
    rw [applyEdges_vertices, lookup_applyInserts,
      lastVal_eq_alLookup g.vertices nV id]
    simp [Graph.new, alLookup]
  · intro f t
    have hkn : ∀ tr ∈ (g.adj_list.map rowTriples).flatten,
        tr.1 ∈ (applyInserts g.vertices (Graph.new : Graph V E)).adj_list.map Prod.fst := by
      intro tr htr
      obtain ⟨p, hp, h1, h2⟩ := mem_flatten_rowTriples g.adj_list htr
      rw [← alLookup_isSome_iff, applyInserts_adj]
      have hmemV : tr.1 ∈ g.vertices.map Prod.fst :=
        (lk tr.1).mpr (h1 ▸ List.mem_map_of_mem Prod.fst hp)
      simp [Graph.new, alLookup, hmemV]
    rw [edgeLookup_applyEdges _ _ hkn, tripleLookup_flatten f t g.adj_list nA nR]
    have hg1 : edgeLookup (applyInserts g.vertices (Graph.new : Graph V E)) f t = none := by
      unfold edgeLookup
      rw [applyInserts_adj]
      simp only [Graph.new, alLookup, optOr_none]
      split <;> simp [alLookup]
    rw [hg1, optOr_none_right]
    rfl

/-- A reachable two-vertex graph with one edge, for the round-trip witness. -/
def gRT : Graph Bool Bool :=
  (insert_edge (insert_node (insert_node Graph.new 1 true).2 2 false).2 ⟨1, 2⟩ true).2

theorem goodVal_singleton {c : Char} (h1 : isWs c = false) (h2 : c ≠ '#')
    (h3 : c ≠ '\n') : goodVal [c] := by
  refine ⟨by simp, ?_, ?_, ?_, ?_⟩
  · rw [List.mem_singleton]
    exact fun h => h2 h.symm
  · rw [List.mem_singleton]
    exact fun h => h3 h.symm
  · intro d hd
    rw [List.head?_cons, Option.some.injEq] at hd
    rw [← hd]
    exact h1
  · intro d hd
    rw [List.getLast?_singleton, Option.some.injEq] at hd
    rw [← hd]
    exact h1

theorem goodVal_displayBool : ∀ v : Bool, goodVal (displayBool v) := by
  intro v
  cases v
  · simpa [displayBool] using goodVal_singleton (by decide) (by decide) (by decide)
  · simpa [displayBool] using goodVal_singleton (by decide) (by decide) (by decide)

theorem parseBool_displayBool : ∀ v : Bool, parseBool (displayBool v) = some v := by
  intro v
  cases v <;> rfl

/-- Witness for the C4 theorem: round-trip of the reachable graph
`{1 ↦ true, 2 ↦ false}` with the edge `1 → 2`. -/
theorem serialize_roundtrip_witness :
    ∃ g' : Graph Bool Bool,
      deserializeGraph parseBool parseBool
        (serializeGraph displayBool displayBool gRT) = .ok g'
      ∧ (∀ id, alLookup id g'.vertices = alLookup id gRT.vertices)
      ∧ (∀ f t, edgeLookup g' f t = edgeLookup gRT f t) :=
  serialize_roundtrip displayBool parseBool displayBool parseBool gRT
    (Reachable.insEdge
      (Reachable.insNode (Reachable.insNode Reachable.empty (by decide)) (by decide))
      (by decide) (by decide))
    goodVal_displayBool parseBool_displayBool goodVal_displayBool parseBool_displayBool

end GraphSpec
